import Mathlib

/-!
Verification of the two text-rewriting scripts of this repository.

`fix_const_var.py` replaces every literal occurrence of `const env = try`
with `var env = try`. `fix_tests.py` applies two regular-expression
substitutions in order:

  1. `const (\w+) = try env\.get\(("[^"]+"|'[^']+'|[\w_]+)\)`
     is replaced by `const \1 = env.get(\2).?`;
  2. `_ = try env\.get\(("[^"]+"|'[^']+'|[\w_]+)\)`
     is replaced by `_ = env.get(\1).?`.

Both scripts use Python's `re.sub`, which scans the text left to right and
replaces non-overlapping leftmost matches, continuing after the end of each
match.  For these particular patterns the backtracking search of the regex
engine is deterministic: every quantifier (`\w+`, `[^"]+`, `[^']+`) is
followed by a character the quantified class can never match (a space, the
closing quote, or the closing parenthesis), so shortening a greedy run can
never recover a failed match, and the three key alternatives start with
pairwise incompatible characters (a double quote, a single quote, a word
character).  The matchers below therefore take maximal runs with no
backtracking, which is observationally the same function.  Word characters
(`\w`) are modelled as ASCII alphanumerics plus underscore.  The
substitution scan is modelled with an explicit fuel argument (the length of
the text) so that every definition evaluates inside the kernel.

The command-line behaviour of the two scripts (`__main__` blocks) is
modelled as a pure function from the argument vector (Python's `sys.argv`,
whose head is the script name) and the file content to a record of the exit
code, the printed lines, and the file accesses performed.
-/

/-- Python `\w` for ASCII text: letters, digits and underscore. -/
def wordChar (c : Char) : Bool := c.isAlphanum || c == '_'

/-- Strip a literal from the front of the text: `some rest` when the text
starts with the literal, `none` otherwise. -/
def stripL : List Char → List Char → Option (List Char)
  | [], s => some s
  | _ :: _, [] => none
  | a :: as, c :: cs => if a == c then stripL as cs else none

/-- Boolean test that `L` is an initial segment of `s`. -/
def starts (L s : List Char) : Bool := (stripL L s).isSome

/-- Scan to the first occurrence of the quote character `q`: returns the
characters before it and the text after it.  This is the deterministic
reading of the regex fragment `[^q]*q` (the callers check nonemptiness,
matching `[^q]+q`).  Note `[^q]` matches any character except `q`,
including newlines. -/
def tillQuote (q : Char) : List Char → Option (List Char × List Char)
  | [] => none
  | c :: s =>
    if c == q then some ([], s)
    else (tillQuote q s).map (fun p => (c :: p.1, p.2))

/-- Maximal run of word characters at the front of the text, with the rest.
This is the deterministic reading of a greedy `\w+` that is followed by a
non-word character in the pattern (the callers check nonemptiness). -/
def wordRun : List Char → List Char × List Char
  | [] => ([], [])
  | c :: s =>
    if wordChar c then
      let p := wordRun s
      (c :: p.1, p.2)
    else ([], c :: s)

/-- The key alternation `("[^"]+"|'[^']+'|[\w_]+)` of both patterns of
`fix_tests.py`.  Returns the matched key text (quotes included, exactly as
the capture group does) and the remaining text.  The three alternatives are
decided by the first character, which is how the regex engine resolves them:
a double quote can only start the first, a single quote only the second, and
a word character only the third. -/
def matchKey : List Char → Option (List Char × List Char)
  | [] => none
  | c :: s =>
    if c == '"' then
      match tillQuote '"' s with
      | some (u, r) => if u.isEmpty then none else some ('"' :: (u ++ ['"']), r)
      | none => none
    else if c == '\'' then
      match tillQuote '\'' s with
      | some (u, r) => if u.isEmpty then none else some ('\'' :: (u ++ ['\'']), r)
      | none => none
    else
      match wordRun (c :: s) with
      | (u, r) => if u.isEmpty then none else some (u, r)

/-- The literal `const ` opening pattern 1 of `fix_tests.py`. -/
def litConst : List Char := ['c', 'o', 'n', 's', 't', ' ']

/-- The literal ` = try env.get(` of pattern 1 of `fix_tests.py`. -/
def litTryGet : List Char :=
  [' ', '=', ' ', 't', 'r', 'y', ' ', 'e', 'n', 'v', '.', 'g', 'e', 't', '(']

/-- The literal ` = env.get(` of replacement 1 of `fix_tests.py`. -/
def litEqGet : List Char := [' ', '=', ' ', 'e', 'n', 'v', '.', 'g', 'e', 't', '(']

/-- The literal `_ = try env.get(` opening pattern 2 of `fix_tests.py`. -/
def litUnd : List Char :=
  ['_', ' ', '=', ' ', 't', 'r', 'y', ' ', 'e', 'n', 'v', '.', 'g', 'e', 't', '(']

/-- The literal `_ = env.get(` of replacement 2 of `fix_tests.py`. -/
def litUndRep : List Char := ['_', ' ', '=', ' ', 'e', 'n', 'v', '.', 'g', 'e', 't', '(']

/-- The literal `).?` closing both replacements of `fix_tests.py`. -/
def closeRep : List Char := [')', '.', '?']

/-- The literal pattern `const env = try` of `fix_const_var.py`. -/
def patCE : List Char :=
  ['c', 'o', 'n', 's', 't', ' ', 'e', 'n', 'v', ' ', '=', ' ', 't', 'r', 'y']

/-- The replacement `var env = try` of `fix_const_var.py`. -/
def repVE : List Char := ['v', 'a', 'r', ' ', 'e', 'n', 'v', ' ', '=', ' ', 't', 'r', 'y']

/-- The pattern `const env = try` of `fix_const_var.py` without its final
character (used to bound where an occurrence overlapping a position can
start). -/
def patCEinit : List Char :=
  ['c', 'o', 'n', 's', 't', ' ', 'e', 'n', 'v', ' ', '=', ' ', 't', 'r']

/-- The text ` = try ` that both patterns of `fix_tests.py` contain. -/
def markerTry : List Char := [' ', '=', ' ', 't', 'r', 'y', ' ']

/-- Matcher for pattern 1 of `fix_tests.py`,
`const (\w+) = try env\.get\(("[^"]+"|'[^']+'|[\w_]+)\)`, at the start of
the given text.  On success it returns the replacement text
`const \1 = env.get(\2).?` and the text after the match. -/
def m1 (s : List Char) : Option (List Char × List Char) :=
  match stripL litConst s with
  | none => none
  | some s1 =>
    match wordRun s1 with
    | (w, s2) =>
      if w.isEmpty then none
      else
        match stripL litTryGet s2 with
        | none => none
        | some s3 =>
          match matchKey s3 with
          | none => none
          | some (k, s4) =>
            match s4 with
            | ')' :: s5 => some (litConst ++ (w ++ (litEqGet ++ (k ++ closeRep))), s5)
            | _ => none

/-- Matcher for pattern 2 of `fix_tests.py`,
`_ = try env\.get\(("[^"]+"|'[^']+'|[\w_]+)\)`, at the start of the given
text.  On success it returns the replacement text `_ = env.get(\1).?` and
the text after the match. -/
def m2 (s : List Char) : Option (List Char × List Char) :=
  match stripL litUnd s with
  | none => none
  | some s1 =>
    match matchKey s1 with
    | none => none
    | some (k, s2) =>
      match s2 with
      | ')' :: s3 => some (litUndRep ++ (k ++ closeRep), s3)
      | _ => none

/-- Matcher for the literal pattern `const env = try` of
`fix_const_var.py`, paired with its replacement `var env = try`. -/
def mConst (s : List Char) : Option (List Char × List Char) :=
  match stripL patCE s with
  | none => none
  | some rest => some (repVE, rest)

/-- One left-to-right substitution pass with matcher `m`, with explicit
fuel.  At each position the matcher is tried; on success the replacement is
emitted and the scan continues after the matched text (the match is never
rescanned), otherwise one character is copied.  This is `re.sub` for a
pattern that cannot match the empty string.  The length guard in the
success branch only serves termination; for the matchers above the rest of
the text is always shorter, so the guard is always true. -/
def subFuel (m : List Char → Option (List Char × List Char)) : Nat → List Char → List Char
  | _, [] => []
  | 0, c :: s => c :: s
  | f + 1, c :: s =>
    match m (c :: s) with
    | some (r, rest) =>
      if rest.length ≤ s.length then r ++ subFuel m f rest else c :: subFuel m f s
    | none => c :: subFuel m f s

/-- `re.sub` with matcher `m` over the whole text. -/
def subAll (m : List Char → Option (List Char × List Char)) (s : List Char) : List Char :=
  subFuel m s.length s

/-- `fix_const_to_var` from `fix_const_var.py`: replace every occurrence of
`const env = try` with `var env = try`. -/
def fix_const_to_var (content : List Char) : List Char := subAll mConst content

/-- `fix_env_get_calls` from `fix_tests.py`: the two substitutions applied
in order, each over the whole text. -/
def fix_env_get_calls (content : List Char) : List Char := subAll m2 (subAll m1 content)

/-- `L` occurs as a contiguous substring of `s`. -/
def occursB (L : List Char) : List Char → Bool
  | [] => starts L []
  | c :: s => starts L (c :: s) || occursB L s

/-- The matcher `m` succeeds at some position of `s` (Python `re.search`
would find a match). -/
def anyMatchB (m : List Char → Option (List Char × List Char)) : List Char → Bool
  | [] => (m []).isSome
  | c :: s => (m (c :: s)).isSome || anyMatchB m s

/-- The text contains no double and no single quote character. -/
def quoteFree (s : List Char) : Bool :=
  s.all (fun c => !(c == '"') && !(c == '\''))

/-- Comparing `L` against the text `r` character by character hits a
mismatch strictly before either list is exhausted.  In that case `L` can
start at the head of `r ++ X` for no continuation `X`. -/
def clash : List Char → List Char → Bool
  | [], _ => false
  | _ :: _, [] => false
  | a :: as, b :: bs => if a == b then clash as bs else true

/-- `t` is a (not necessarily proper) final segment of `s`. -/
def tailOf (t s : List Char) : Prop := ∃ d, d ++ t = s

/-- The shapes the key capture group can produce: a nonempty double-quoted
literal, a nonempty single-quoted literal, or a nonempty word-character
identifier. -/
def KeyShape (k : List Char) : Prop :=
  (∃ u, u ≠ [] ∧ '"' ∉ u ∧ k = '"' :: (u ++ ['"'])) ∨
  (∃ u, u ≠ [] ∧ '\'' ∉ u ∧ k = '\'' :: (u ++ ['\''])) ∨
  (k ≠ [] ∧ ∀ c ∈ k, wordChar c = true)

/-- Observable outcome of one invocation of either script: process exit
code, lines printed to standard output, whether the target file was opened
for reading, and the content written back (`none` when the file is never
opened for writing). -/
structure ToolRun where
  exitCode : Nat
  output : List String
  fileRead : Bool
  fileWritten : Option (List Char)
  deriving DecidableEq

/-- The `__main__` block shared by both scripts: with an argument vector
`argv` (including the script name, as in `sys.argv`) of length other than
2, print the usage line and exit with status 1 before any file access;
otherwise read the file, transform the content, write it back and print the
confirmation line. -/
def runScript (fixer : List Char → List Char) (usage : String)
    (argv : List String) (content : List Char) : ToolRun :=
  if argv.length ≠ 2 then ⟨1, [usage], false, none⟩
  else ⟨0, ["Fixed " ++ argv.getD 1 ""], true, some (fixer content)⟩

/-- The `__main__` block of `fix_const_var.py`. -/
def mainConstVar (argv : List String) (content : List Char) : ToolRun :=
  runScript fix_const_to_var "Usage: python fix_const_var.py <file>" argv content

/-- The `__main__` block of `fix_tests.py`. -/
def mainTests (argv : List String) (content : List Char) : ToolRun :=
  runScript fix_env_get_calls "Usage: python fix_tests.py <file>" argv content

/-! ### Basic facts about the text primitives -/

theorem stripL_self (L t : List Char) : stripL L (L ++ t) = some t := by
  induction L with
  | nil => rfl
  | cons a as ih => simp [stripL, ih]

theorem stripL_eq_some {L s t : List Char} (h : stripL L s = some t) : s = L ++ t := by
  induction L generalizing s with
  | nil => simp [stripL] at h; simp [h]
  | cons a as ih =>
    cases s with
    | nil => simp [stripL] at h
    | cons c cs =>
      rw [stripL] at h
      split at h
      · next hac =>
        have hcs := ih h
        have hac' : a = c := by simpa using hac
        simp [hac', hcs]
      · exact absurd h (by simp)

theorem starts_cons (a c : Char) (as cs : List Char) :
    starts (a :: as) (c :: cs) = ((a == c) && starts as cs) := by
  cases hac : a == c <;> simp [starts, stripL, hac]

theorem starts_nil_right (a : Char) (as : List Char) : starts (a :: as) [] = false := rfl

theorem starts_eq_true {L s : List Char} : starts L s = true ↔ ∃ t, s = L ++ t := by
  constructor
  · intro h
    unfold starts at h
    cases hs : stripL L s with
    | none => rw [hs] at h; simp at h
    | some t => exact ⟨t, stripL_eq_some hs⟩
  · rintro ⟨t, rfl⟩
    unfold starts
    rw [stripL_self]
    rfl

theorem starts_self_append (L t : List Char) : starts L (L ++ t) = true :=
  starts_eq_true.mpr ⟨t, rfl⟩

theorem clash_no_starts {L r : List Char} (h : clash L r = true) (X : List Char) :
    starts L (r ++ X) = false := by
  induction L generalizing r with
  | nil => simp [clash] at h
  | cons a as ih =>
    cases r with
    | nil => simp [clash] at h
    | cons b bs =>
      rw [clash] at h
      rw [List.cons_append, starts_cons]
      split at h
      · next hab => rw [ih h, Bool.and_false]
      · next hab =>
        have : (a == b) = false := by
          cases hc : (a == b) with
          | false => rfl
          | true => exact absurd hc hab
        rw [this, Bool.false_and]

theorem starts_extend_false {L x : List Char} {ch : Char} (hch : ch ∉ L)
    (h : starts L x = false) (z : List Char) : starts L (x ++ ch :: z) = false := by
  induction L generalizing x with
  | nil => simp [starts, stripL] at h
  | cons a as ih =>
    cases x with
    | nil =>
      have hne : a ≠ ch := fun he => hch (by simp [he])
      rw [List.nil_append, starts_cons]
      have : (a == ch) = false := by
        cases hc : (a == ch) with
        | false => rfl
        | true => exact absurd (by simpa using hc) hne
      rw [this, Bool.false_and]
    | cons c cs =>
      rw [starts_cons] at h
      rw [List.cons_append, starts_cons]
      cases hac : (a == c) with
      | false => rw [Bool.false_and]
      | true =>
        rw [hac, Bool.true_and] at h
        rw [Bool.true_and]
        exact ih (fun hm => hch (List.mem_cons_of_mem a hm)) h

theorem starts_shorten {L x : List Char} (hlen : L.length ≤ x.length) {y : List Char}
    (h : starts L (x ++ y) = true) : starts L x = true := by
  induction L generalizing x with
  | nil => rfl
  | cons a as ih =>
    cases x with
    | nil => simp at hlen
    | cons c cs =>
      rw [List.cons_append, starts_cons] at h
      rw [starts_cons]
      cases hac : (a == c) with
      | false => rw [hac, Bool.false_and] at h; exact h
      | true =>
        rw [hac, Bool.true_and] at h
        rw [Bool.true_and]
        exact ih (by simpa using hlen) h

/-! ### Occurrence and scan lemmas -/

theorem occursB_cons (L : List Char) (c : Char) (s : List Char) :
    occursB L (c :: s) = (starts L (c :: s) || occursB L s) := rfl

theorem occursB_of_starts {L s : List Char} (h : starts L s = true) : occursB L s = true := by
  cases s with
  | nil => exact h
  | cons c cs => rw [occursB_cons, h, Bool.true_or]

theorem tailOf_refl (s : List Char) : tailOf s s := ⟨[], rfl⟩

theorem tailOf_cons {t s : List Char} (c : Char) (h : tailOf t s) : tailOf t (c :: s) := by
  obtain ⟨d, rfl⟩ := h
  exact ⟨c :: d, rfl⟩

theorem tailOf_mem_tails {t s : List Char} (h : tailOf t s) : t ∈ s.tails := by
  obtain ⟨d, rfl⟩ := h
  induction d with
  | nil => simp [List.mem_tails]
  | cons c d' ih =>
    rw [List.cons_append, List.tails_cons]
    exact List.mem_cons_of_mem _ ih

theorem occursB_false_starts {L s : List Char} (h : occursB L s = false) {t : List Char}
    (ht : tailOf t s) : starts L t = false := by
  obtain ⟨d, rfl⟩ := ht
  induction d with
  | nil =>
    cases t with
    | nil => exact h
    | cons c cs =>
      rw [List.nil_append, occursB_cons] at h
      exact (Bool.or_eq_false_iff.mp h).1
  | cons c d' ih =>
    rw [List.cons_append, occursB_cons] at h
    exact ih (Bool.or_eq_false_iff.mp h).2

theorem occursB_of_tail {L t s : List Char} (ht : tailOf t s) (h : occursB L t = true) :
    occursB L s = true := by
  obtain ⟨d, rfl⟩ := ht
  induction d with
  | nil => exact h
  | cons c d' ih => rw [List.cons_append, occursB_cons, ih, Bool.or_true]

theorem occursB_seg_false {L x y : List Char}
    (hx : ∀ t, tailOf t x → t ≠ [] → starts L (t ++ y) = false)
    (hy : occursB L y = false) : occursB L (x ++ y) = false := by
  induction x with
  | nil => exact hy
  | cons c x' ih =>
    rw [List.cons_append, occursB_cons]
    have h1 : starts L ((c :: x') ++ y) = false := hx (c :: x') (tailOf_refl _) (by simp)
    rw [List.cons_append] at h1
    rw [h1, Bool.false_or]
    exact ih (fun t ht hne => hx t (tailOf_cons c ht) hne)

theorem occursB_intro (L x z : List Char) : occursB L (x ++ (L ++ z)) = true := by
  induction x with
  | nil => exact occursB_of_starts (starts_self_append L z)
  | cons c x' ih => rw [List.cons_append, occursB_cons, ih, Bool.or_true]

theorem occursB_append_left_false {L r t : List Char}
    (l0 : Char) (L' : List Char) (hL : L = l0 :: L')
    (hr : ∀ x ∈ r, x ≠ l0) (ht : occursB L t = false) : occursB L (r ++ t) = false := by
  induction r with
  | nil => exact ht
  | cons x r' ih =>
    rw [List.cons_append, occursB_cons]
    have h1 : starts L (x :: (r' ++ t)) = false := by
      rw [hL, starts_cons]
      have hx : (l0 == x) = false := by
        cases hc : l0 == x with
        | false => rfl
        | true =>
          have hlx : l0 = x := by simpa using hc
          exact absurd hlx.symm (hr x (List.mem_cons_self x r'))
      rw [hx, Bool.false_and]
    rw [h1, Bool.false_or]
    exact ih (fun y hy => hr y (List.mem_cons_of_mem x hy))

theorem subFuel_nil (m : List Char → Option (List Char × List Char)) (f : Nat) :
    subFuel m f [] = [] := by cases f <;> rfl

theorem subFuel_fuel (m : List Char → Option (List Char × List Char)) :
    ∀ f g s, s.length ≤ f → s.length ≤ g → subFuel m f s = subFuel m g s := by
  intro f
  induction f with
  | zero =>
    intro g s hf hg
    have hs : s = [] := List.length_eq_zero.mp (Nat.le_zero.mp hf)
    subst hs
    rw [subFuel_nil, subFuel_nil]
  | succ f ih =>
    intro g s hf hg
    cases s with
    | nil => rw [subFuel_nil, subFuel_nil]
    | cons c s' =>
      cases g with
      | zero => simp at hg
      | succ g' =>
        have hf' : s'.length ≤ f := by simp at hf; omega
        have hg' : s'.length ≤ g' := by simp at hg; omega
        simp only [subFuel]
        cases hm : m (c :: s') with
        | none => rw [ih g' s' hf' hg']
        | some p =>
          obtain ⟨r, rest⟩ := p
          dsimp only
          by_cases hl : rest.length ≤ s'.length
          · rw [if_pos hl, if_pos hl, ih g' rest (le_trans hl hf') (le_trans hl hg')]
          · rw [if_neg hl, if_neg hl, ih g' s' hf' hg']

theorem subAll_cons_none {m : List Char → Option (List Char × List Char)} {c : Char}
    {s : List Char} (h : m (c :: s) = none) : subAll m (c :: s) = c :: subAll m s := by
  unfold subAll
  simp only [List.length_cons, subFuel, h]

theorem subAll_cons_some {m : List Char → Option (List Char × List Char)} {c : Char}
    {s r rest : List Char} (h : m (c :: s) = some (r, rest)) (hl : rest.length ≤ s.length) :
    subAll m (c :: s) = r ++ subAll m rest := by
  unfold subAll
  simp only [List.length_cons, subFuel, h]
  rw [if_pos hl, subFuel_fuel m s.length rest.length rest hl (le_refl _)]

theorem subAll_id {m : List Char → Option (List Char × List Char)} {s : List Char}
    (h : anyMatchB m s = false) : subAll m s = s := by
  induction s with
  | nil => rfl
  | cons c s' ih =>
    rw [anyMatchB] at h
    have h1 := (Bool.or_eq_false_iff.mp h).1
    have h2 := (Bool.or_eq_false_iff.mp h).2
    cases hm : m (c :: s') with
    | some p => rw [hm] at h1; simp at h1
    | none => rw [subAll_cons_none hm, ih h2]

theorem anyMatchB_false_of_no_occurs {m : List Char → Option (List Char × List Char)}
    {L : List Char} (hm : ∀ t, (m t).isSome = true → occursB L t = true)
    {s : List Char} (h : occursB L s = false) : anyMatchB m s = false := by
  induction s with
  | nil =>
    rw [anyMatchB]
    cases hmm : (m []).isSome with
    | false => rfl
    | true => rw [hm [] hmm] at h; exact absurd h (by simp)
  | cons c s' ih =>
    rw [occursB_cons] at h
    have h1 := (Bool.or_eq_false_iff.mp h).1
    have h2 := (Bool.or_eq_false_iff.mp h).2
    rw [anyMatchB]
    cases hmm : (m (c :: s')).isSome with
    | true =>
      exact absurd (hm _ hmm) (by rw [occursB_cons, h1, h2]; simp)
    | false => rw [Bool.false_or]; exact ih h2

/-! ### Inversion and completeness of the three matchers -/

theorem isEmpty_false_of_ne {u : List Char} (h : u ≠ []) : u.isEmpty = false := by
  cases u with
  | nil => exact absurd rfl h
  | cons a as => rfl

theorem tillQuote_some {q : Char} {s u r : List Char} (h : tillQuote q s = some (u, r)) :
    s = u ++ q :: r ∧ q ∉ u := by
  induction s generalizing u r with
  | nil => simp [tillQuote] at h
  | cons c s' ih =>
    rw [tillQuote] at h
    split at h
    · next hc =>
      have hcq : c = q := by simpa using hc
      simp at h
      obtain ⟨hu, hr⟩ := h
      subst hu
      subst hr
      exact ⟨by simp [hcq], by simp⟩
    · next hc =>
      cases ht : tillQuote q s' with
      | none => rw [ht] at h; simp at h
      | some p =>
        obtain ⟨u', r'⟩ := p
        rw [ht] at h
        simp at h
        obtain ⟨hu, hr⟩ := h
        subst hu
        subst hr
        obtain ⟨hs, hmem⟩ := ih ht
        have hcq : c ≠ q := by simpa using hc
        constructor
        · rw [hs]; rfl
        · intro hm
          rcases List.mem_cons.mp hm with he | hm'
          · exact hcq he.symm
          · exact hmem hm'

theorem tillQuote_complete {q : Char} {u : List Char} (hq : q ∉ u) (r : List Char) :
    tillQuote q (u ++ q :: r) = some (u, r) := by
  induction u with
  | nil => simp [tillQuote]
  | cons c u' ih =>
    have hcq : (c == q) = false := by
      cases hc : c == q with
      | false => rfl
      | true =>
        have he : c = q := by simpa using hc
        exact absurd (by simp [he] : q ∈ c :: u') hq
    rw [List.cons_append, tillQuote, if_neg (by simp [hcq]),
      ih (fun hm => hq (List.mem_cons_of_mem c hm))]
    rfl

theorem wordRun_eq {s u r : List Char} (h : wordRun s = (u, r)) :
    s = u ++ r ∧ (∀ c ∈ u, wordChar c = true) ∧
      (r = [] ∨ ∃ c r', r = c :: r' ∧ wordChar c = false) := by
  induction s generalizing u r with
  | nil =>
    rw [wordRun] at h
    simp at h
    obtain ⟨hu, hr⟩ := h
    subst hu
    subst hr
    exact ⟨rfl, by simp, Or.inl rfl⟩
  | cons c s' ih =>
    by_cases hw : wordChar c = true
    · rw [wordRun, if_pos hw] at h
      cases hp : wordRun s' with
      | mk u0 r0 =>
        rw [hp] at h
        simp at h
        obtain ⟨hu, hr⟩ := h
        subst hu
        subst hr
        obtain ⟨hs, hword, hshape⟩ := ih hp
        refine ⟨by simp [hs], ?_, hshape⟩
        intro x hx
        rcases List.mem_cons.mp hx with rfl | hx'
        · exact hw
        · exact hword x hx'
    · rw [wordRun, if_neg hw] at h
      simp at h
      obtain ⟨hu, hr⟩ := h
      subst hu
      subst hr
      refine ⟨rfl, by simp, Or.inr ⟨c, s', rfl, ?_⟩⟩
      cases hwc : wordChar c with
      | false => rfl
      | true => exact absurd hwc hw

theorem wordRun_complete {u r : List Char} (hword : ∀ c ∈ u, wordChar c = true)
    (hr : r = [] ∨ ∃ c r', r = c :: r' ∧ wordChar c = false) :
    wordRun (u ++ r) = (u, r) := by
  induction u with
  | nil =>
    rcases hr with rfl | ⟨c, r', rfl, hc⟩
    · rfl
    · rw [List.nil_append, wordRun, if_neg (by simp [hc])]
  | cons c u' ih =>
    have hc : wordChar c = true := hword c (List.mem_cons_self c u')
    rw [List.cons_append, wordRun, if_pos hc,
      ih (fun x hx => hword x (List.mem_cons_of_mem c hx))]

theorem wordChar_ne_dq {c : Char} (h : wordChar c = true) : (c == '"') = false := by
  cases hc : c == '"' with
  | false => rfl
  | true =>
    have he : c = '"' := by simpa using hc
    rw [he] at h
    exact absurd h (by decide)

theorem wordChar_ne_sq {c : Char} (h : wordChar c = true) : (c == '\'') = false := by
  cases hc : c == '\'' with
  | false => rfl
  | true =>
    have he : c = '\'' := by simpa using hc
    rw [he] at h
    exact absurd h (by decide)

theorem matchKey_inv {s k r : List Char} (h : matchKey s = some (k, r)) :
    KeyShape k ∧ s = k ++ r := by
  cases s with
  | nil => simp [matchKey] at h
  | cons c s' =>
    rw [matchKey] at h
    by_cases hdq : (c == '"') = true
    · rw [if_pos hdq] at h
      have hc : c = '"' := by simpa using hdq
      cases ht : tillQuote '"' s' with
      | none => rw [ht] at h; simp at h
      | some p =>
        obtain ⟨u, r'⟩ := p
        rw [ht] at h
        dsimp only at h
        by_cases hu : u.isEmpty = true
        · rw [if_pos hu] at h; simp at h
        · rw [if_neg hu] at h
          simp at h
          obtain ⟨hk, hr⟩ := h
          subst hk
          subst hr
          obtain ⟨hs, hmem⟩ := tillQuote_some ht
          refine ⟨Or.inl ⟨u, fun he => hu (by simp [he]), hmem, rfl⟩, ?_⟩
          rw [hc, hs]
          simp
    · rw [if_neg hdq] at h
      by_cases hsq : (c == '\'') = true
      · rw [if_pos hsq] at h
        have hc : c = '\'' := by simpa using hsq
        cases ht : tillQuote '\'' s' with
        | none => rw [ht] at h; simp at h
        | some p =>
          obtain ⟨u, r'⟩ := p
          rw [ht] at h
          dsimp only at h
          by_cases hu : u.isEmpty = true
          · rw [if_pos hu] at h; simp at h
          · rw [if_neg hu] at h
            simp at h
            obtain ⟨hk, hr⟩ := h
            subst hk
            subst hr
            obtain ⟨hs, hmem⟩ := tillQuote_some ht
            refine ⟨Or.inr (Or.inl ⟨u, fun he => hu (by simp [he]), hmem, rfl⟩), ?_⟩
            rw [hc, hs]
            simp
      · rw [if_neg hsq] at h
        cases hp : wordRun (c :: s') with
        | mk u r' =>
          rw [hp] at h
          dsimp only at h
          by_cases hu : u.isEmpty = true
          · rw [if_pos hu] at h; simp at h
          · rw [if_neg hu] at h
            simp at h
            obtain ⟨hk, hr⟩ := h
            subst hk
            subst hr
            obtain ⟨hs, hword, _⟩ := wordRun_eq hp
            exact ⟨Or.inr (Or.inr ⟨fun he => hu (by simp [he]), hword⟩), hs⟩

theorem matchKey_close {k : List Char} (hk : KeyShape k) (t : List Char) :
    matchKey (k ++ ')' :: t) = some (k, ')' :: t) := by
  rcases hk with ⟨u, hu, hmem, rfl⟩ | ⟨u, hu, hmem, rfl⟩ | ⟨hk0, hword⟩
  · rw [List.cons_append, matchKey, if_pos (by simp)]
    have hshape : (u ++ ['"']) ++ ')' :: t = u ++ '"' :: (')' :: t) := by simp
    rw [hshape, tillQuote_complete hmem]
    dsimp only
    rw [if_neg (by simp [isEmpty_false_of_ne hu])]
  · rw [List.cons_append, matchKey, if_neg (by decide), if_pos (by simp)]
    have hshape : (u ++ ['\'']) ++ ')' :: t = u ++ '\'' :: (')' :: t) := by simp
    rw [hshape, tillQuote_complete hmem]
    dsimp only
    rw [if_neg (by simp [isEmpty_false_of_ne hu])]
  · cases k with
    | nil => exact absurd rfl hk0
    | cons c k' =>
      have hc : wordChar c = true := hword c (List.mem_cons_self c k')
      rw [List.cons_append, matchKey, if_neg (by simp [wordChar_ne_dq hc]),
        if_neg (by simp [wordChar_ne_sq hc])]
      have hrun : wordRun (c :: (k' ++ ')' :: t)) = (c :: k', ')' :: t) := by
        have := wordRun_complete hword (Or.inr ⟨')', t, rfl, by decide⟩)
        rw [List.cons_append] at this
        exact this
      rw [hrun]
      dsimp only
      rw [if_neg (by simp [isEmpty_false_of_ne hk0])]

theorem m1_inv {s r rest : List Char} (h : m1 s = some (r, rest)) :
    ∃ w k, w ≠ [] ∧ (∀ c ∈ w, wordChar c = true) ∧ KeyShape k ∧
      s = litConst ++ (w ++ (litTryGet ++ (k ++ ')' :: rest))) ∧
      r = litConst ++ (w ++ (litEqGet ++ (k ++ closeRep))) := by
  rw [m1] at h
  cases h1 : stripL litConst s with
  | none => rw [h1] at h; simp at h
  | some s1 =>
    rw [h1] at h
    dsimp only at h
    cases hp : wordRun s1 with
    | mk w s2 =>
      rw [hp] at h
      dsimp only at h
      by_cases hw : w.isEmpty = true
      · rw [if_pos hw] at h; simp at h
      · rw [if_neg hw] at h
        cases h2 : stripL litTryGet s2 with
        | none => rw [h2] at h; simp at h
        | some s3 =>
          rw [h2] at h
          dsimp only at h
          cases h3 : matchKey s3 with
          | none => rw [h3] at h; simp at h
          | some p =>
            obtain ⟨k, s4⟩ := p
            rw [h3] at h
            dsimp only at h
            split at h
            · next s5 =>
              simp at h
              obtain ⟨hr, hrest⟩ := h
              subst hrest
              obtain ⟨hs1, hword, _⟩ := wordRun_eq hp
              obtain ⟨hks, hs3⟩ := matchKey_inv h3
              refine ⟨w, k, fun he => hw (by simp [he]), hword, hks, ?_, hr.symm⟩
              rw [stripL_eq_some h1, hs1, stripL_eq_some h2, hs3]
            · simp at h
  
theorem m1_complete {w k : List Char} (hw : w ≠ []) (hword : ∀ c ∈ w, wordChar c = true)
    (hk : KeyShape k) (t : List Char) :
    m1 (litConst ++ (w ++ (litTryGet ++ (k ++ ')' :: t)))) =
      some (litConst ++ (w ++ (litEqGet ++ (k ++ closeRep))), t) := by
  rw [m1, stripL_self]
  dsimp only
  have h1 : wordRun (w ++ (litTryGet ++ (k ++ ')' :: t))) =
      (w, litTryGet ++ (k ++ ')' :: t)) :=
    wordRun_complete hword (Or.inr ⟨' ', _, rfl, by decide⟩)
  rw [h1]
  dsimp only
  rw [if_neg (by simp [isEmpty_false_of_ne hw]), stripL_self]
  dsimp only
  rw [matchKey_close hk t]
  rfl

theorem m2_inv {s r rest : List Char} (h : m2 s = some (r, rest)) :
    ∃ k, KeyShape k ∧ s = litUnd ++ (k ++ ')' :: rest) ∧
      r = litUndRep ++ (k ++ closeRep) := by
  rw [m2] at h
  cases h1 : stripL litUnd s with
  | none => rw [h1] at h; simp at h
  | some s1 =>
    rw [h1] at h
    dsimp only at h
    cases h3 : matchKey s1 with
    | none => rw [h3] at h; simp at h
    | some p =>
      obtain ⟨k, s2⟩ := p
      rw [h3] at h
      dsimp only at h
      split at h
      · next s3 =>
        simp at h
        obtain ⟨hr, hrest⟩ := h
        subst hrest
        obtain ⟨hks, hs1⟩ := matchKey_inv h3
        exact ⟨k, hks, by rw [stripL_eq_some h1, hs1], hr.symm⟩
      · simp at h

theorem m2_complete {k : List Char} (hk : KeyShape k) (t : List Char) :
    m2 (litUnd ++ (k ++ ')' :: t)) = some (litUndRep ++ (k ++ closeRep), t) := by
  rw [m2, stripL_self]
  dsimp only
  rw [matchKey_close hk t]
  rfl

theorem mConst_inv {s r rest : List Char} (h : mConst s = some (r, rest)) :
    r = repVE ∧ s = patCE ++ rest := by
  rw [mConst] at h
  cases h1 : stripL patCE s with
  | none => rw [h1] at h; simp at h
  | some t =>
    rw [h1] at h
    simp at h
    obtain ⟨hr, ht⟩ := h
    subst ht
    exact ⟨hr.symm, stripL_eq_some h1⟩

theorem mConst_complete (t : List Char) : mConst (patCE ++ t) = some (repVE, t) := by
  rw [mConst, stripL_self]

theorem mConst_isSome (s : List Char) : (mConst s).isSome = starts patCE s := by
  rw [mConst, starts]
  cases h1 : stripL patCE s <;> rfl

theorem m1_lt {s r rest : List Char} (h : m1 s = some (r, rest)) :
    rest.length < s.length := by
  obtain ⟨w, k, _, _, _, hs, _⟩ := m1_inv h
  rw [hs]
  simp [litConst, litTryGet]
  omega

theorem m2_lt {s r rest : List Char} (h : m2 s = some (r, rest)) :
    rest.length < s.length := by
  obtain ⟨k, _, hs, _⟩ := m2_inv h
  rw [hs]
  simp [litUnd]
  omega

theorem mConst_lt {s r rest : List Char} (h : mConst s = some (r, rest)) :
    rest.length < s.length := by
  obtain ⟨_, hs⟩ := mConst_inv h
  rw [hs]
  simp [patCE]
  omega

theorem m1_tail {s r rest : List Char} (h : m1 s = some (r, rest)) : tailOf rest s := by
  obtain ⟨w, k, _, _, _, hs, _⟩ := m1_inv h
  exact ⟨litConst ++ (w ++ (litTryGet ++ (k ++ [')']))), by rw [hs]; simp⟩

theorem m2_tail {s r rest : List Char} (h : m2 s = some (r, rest)) : tailOf rest s := by
  obtain ⟨k, _, hs, _⟩ := m2_inv h
  exact ⟨litUnd ++ (k ++ [')']), by rw [hs]; simp⟩

/-! ### Quote-free texts and newline locality of the scan -/

theorem consume_le {m : List Char → Option (List Char × List Char)}
    (hlt : ∀ s r rest, m s = some (r, rest) → rest.length < s.length)
    {c : Char} {s r rest : List Char} (h : m (c :: s) = some (r, rest)) :
    rest.length ≤ s.length := by
  have hx := hlt _ _ _ h
  simp only [List.length_cons] at hx
  omega

theorem chopAt {M t x b : List Char} {ch : Char} (hch : ch ∉ M)
    (h : M ++ t = x ++ ch :: b) : ∃ x', x = M ++ x' ∧ t = x' ++ ch :: b := by
  induction M generalizing x with
  | nil =>
    rw [List.nil_append] at h
    exact ⟨x, rfl, h⟩
  | cons a M' ih =>
    cases x with
    | nil =>
      rw [List.nil_append, List.cons_append] at h
      injection h with h1 h2
      exact absurd h1 (fun he => hch (by simp [he]))
    | cons c x' =>
      rw [List.cons_append, List.cons_append] at h
      injection h with h1 h2
      obtain ⟨x'', hx, ht⟩ := ih (fun hm => hch (List.mem_cons_of_mem a hm)) h2
      exact ⟨x'', by rw [List.cons_append, h1, hx], ht⟩

theorem quoteFree_cons {c : Char} {s : List Char} (h : quoteFree (c :: s) = true) :
    (!(c == '"') && !(c == '\'')) = true ∧ quoteFree s = true := by
  rw [quoteFree, List.all_cons, Bool.and_eq_true] at h
  exact ⟨h.1, h.2⟩

theorem quoteFree_tail {t s : List Char} (ht : tailOf t s) (h : quoteFree s = true) :
    quoteFree t = true := by
  obtain ⟨d, rfl⟩ := ht
  induction d with
  | nil => exact h
  | cons c d' ih => exact ih (quoteFree_cons h).2

theorem quoteFree_append (x y : List Char) :
    quoteFree (x ++ y) = (quoteFree x && quoteFree y) := by
  rw [quoteFree, quoteFree, quoteFree, List.all_append]

theorem quoteFree_not_mem_dq {s : List Char} (h : quoteFree s = true) : '"' ∉ s := by
  intro hm
  rw [quoteFree, List.all_eq_true] at h
  have := h _ hm
  simp at this

theorem quoteFree_not_mem_sq {s : List Char} (h : quoteFree s = true) : '\'' ∉ s := by
  intro hm
  rw [quoteFree, List.all_eq_true] at h
  have := h _ hm
  simp at this

theorem nl_not_in_word {w : List Char} (hword : ∀ c ∈ w, wordChar c = true) : '\n' ∉ w := by
  intro hm
  exact absurd (hword _ hm) (by decide)

theorem stripL_head_ne {a c : Char} {as cs : List Char} (h : a ≠ c) :
    stripL (a :: as) (c :: cs) = none := by
  rw [stripL, if_neg (by simp [h])]

theorem m1_nl (b : List Char) : m1 ('\n' :: b) = none := by
  have h : stripL litConst ('\n' :: b) = none := stripL_head_ne (by decide)
  rw [m1, h]

theorem m2_nl (b : List Char) : m2 ('\n' :: b) = none := by
  have h : stripL litUnd ('\n' :: b) = none := stripL_head_ne (by decide)
  rw [m2, h]

theorem m1_ext_some {x r rest : List Char} (h : m1 x = some (r, rest)) (e : List Char) :
    m1 (x ++ e) = some (r, rest ++ e) := by
  obtain ⟨w, k, hw, hword, hk, hx, hr⟩ := m1_inv h
  subst hr
  have hshape : x ++ e = litConst ++ (w ++ (litTryGet ++ (k ++ ')' :: (rest ++ e)))) := by
    rw [hx]; simp
  rw [hshape, m1_complete hw hword hk]

theorem m2_ext_some {x r rest : List Char} (h : m2 x = some (r, rest)) (e : List Char) :
    m2 (x ++ e) = some (r, rest ++ e) := by
  obtain ⟨k, hk, hx, hr⟩ := m2_inv h
  subst hr
  have hshape : x ++ e = litUnd ++ (k ++ ')' :: (rest ++ e)) := by
    rw [hx]; simp
  rw [hshape, m2_complete hk]

theorem m1_ext_none {x : List Char} (hqf : quoteFree x = true) (h : m1 x = none)
    (b : List Char) : m1 (x ++ '\n' :: b) = none := by
  cases hm : m1 (x ++ '\n' :: b) with
  | none => rfl
  | some p =>
    obtain ⟨r, rest⟩ := p
    obtain ⟨w, k, hw, hword, hk, hx, hr⟩ := m1_inv hm
    exfalso
    rcases hk with ⟨u, hu, humem, hkq⟩ | ⟨u, hu, humem, hkq⟩ | ⟨hk0, hkword⟩
    · subst hkq
      have heq : (litConst ++ (w ++ (litTryGet ++ ['"']))) ++ (u ++ ('"' :: ')' :: rest)) =
          x ++ '\n' :: b := by
        rw [hx]; simp
      have hnm : '\n' ∉ litConst ++ (w ++ (litTryGet ++ ['"'])) := by
        intro hmem
        rcases List.mem_append.mp hmem with h1 | h1
        · exact absurd h1 (by decide)
        rcases List.mem_append.mp h1 with h2 | h2
        · exact nl_not_in_word hword h2
        rcases List.mem_append.mp h2 with h3 | h3
        · exact absurd h3 (by decide)
        · exact absurd h3 (by decide)
      obtain ⟨x', hx', -⟩ := chopAt hnm heq
      exact quoteFree_not_mem_dq hqf (by rw [hx']; simp)
    · subst hkq
      have heq : (litConst ++ (w ++ (litTryGet ++ ['\'']))) ++ (u ++ ('\'' :: ')' :: rest)) =
          x ++ '\n' :: b := by
        rw [hx]; simp
      have hnm : '\n' ∉ litConst ++ (w ++ (litTryGet ++ ['\''])) := by
        intro hmem
        rcases List.mem_append.mp hmem with h1 | h1
        · exact absurd h1 (by decide)
        rcases List.mem_append.mp h1 with h2 | h2
        · exact nl_not_in_word hword h2
        rcases List.mem_append.mp h2 with h3 | h3
        · exact absurd h3 (by decide)
        · exact absurd h3 (by decide)
      obtain ⟨x', hx', -⟩ := chopAt hnm heq
      exact quoteFree_not_mem_sq hqf (by rw [hx']; simp)
    · have heq : (litConst ++ (w ++ (litTryGet ++ (k ++ [')'])))) ++ rest =
          x ++ '\n' :: b := by
        rw [hx]; simp
      have hnm : '\n' ∉ litConst ++ (w ++ (litTryGet ++ (k ++ [')']))) := by
        intro hmem
        rcases List.mem_append.mp hmem with h1 | h1
        · exact absurd h1 (by decide)
        rcases List.mem_append.mp h1 with h2 | h2
        · exact nl_not_in_word hword h2
        rcases List.mem_append.mp h2 with h3 | h3
        · exact absurd h3 (by decide)
        rcases List.mem_append.mp h3 with h4 | h4
        · exact nl_not_in_word hkword h4
        · exact absurd h4 (by decide)
      obtain ⟨x', hx', -⟩ := chopAt hnm heq
      have hsome : m1 x = some (litConst ++ (w ++ (litEqGet ++ (k ++ closeRep))), x') := by
        have hshape : x = litConst ++ (w ++ (litTryGet ++ (k ++ ')' :: x'))) := by
          rw [hx']; simp
        rw [hshape]
        exact m1_complete hw hword (Or.inr (Or.inr ⟨hk0, hkword⟩)) x'
      rw [h] at hsome
      exact absurd hsome (by simp)

theorem m2_ext_none {x : List Char} (hqf : quoteFree x = true) (h : m2 x = none)
    (b : List Char) : m2 (x ++ '\n' :: b) = none := by
  cases hm : m2 (x ++ '\n' :: b) with
  | none => rfl
  | some p =>
    obtain ⟨r, rest⟩ := p
    obtain ⟨k, hk, hx, hr⟩ := m2_inv hm
    exfalso
    rcases hk with ⟨u, hu, humem, hkq⟩ | ⟨u, hu, humem, hkq⟩ | ⟨hk0, hkword⟩
    · subst hkq
      have heq : (litUnd ++ ['"']) ++ (u ++ ('"' :: ')' :: rest)) = x ++ '\n' :: b := by
        rw [hx]; simp
      have hnm : '\n' ∉ litUnd ++ ['"'] := by decide
      obtain ⟨x', hx', -⟩ := chopAt hnm heq
      exact quoteFree_not_mem_dq hqf (by rw [hx']; simp)
    · subst hkq
      have heq : (litUnd ++ ['\'']) ++ (u ++ ('\'' :: ')' :: rest)) = x ++ '\n' :: b := by
        rw [hx]; simp
      have hnm : '\n' ∉ litUnd ++ ['\''] := by decide
      obtain ⟨x', hx', -⟩ := chopAt hnm heq
      exact quoteFree_not_mem_sq hqf (by rw [hx']; simp)
    · have heq : (litUnd ++ (k ++ [')'])) ++ rest = x ++ '\n' :: b := by
        rw [hx]; simp
      have hnm : '\n' ∉ litUnd ++ (k ++ [')']) := by
        intro hmem
        rcases List.mem_append.mp hmem with h1 | h1
        · exact absurd h1 (by decide)
        rcases List.mem_append.mp h1 with h2 | h2
        · exact nl_not_in_word hkword h2
        · exact absurd h2 (by decide)
      obtain ⟨x', hx', -⟩ := chopAt hnm heq
      have hsome : m2 x = some (litUndRep ++ (k ++ closeRep), x') := by
        have hshape : x = litUnd ++ (k ++ ')' :: x') := by
          rw [hx']; simp
        rw [hshape]
        exact m2_complete (Or.inr (Or.inr ⟨hk0, hkword⟩)) x'
      rw [h] at hsome
      exact absurd hsome (by simp)

theorem subAll_ext {m : List Char → Option (List Char × List Char)}
    (hlt : ∀ s r rest, m s = some (r, rest) → rest.length < s.length)
    (htail : ∀ s r rest, m s = some (r, rest) → tailOf rest s)
    (hsome : ∀ x r rest, m x = some (r, rest) → ∀ e, m (x ++ e) = some (r, rest ++ e))
    (hnone : ∀ x, quoteFree x = true → m x = none → ∀ b, m (x ++ '\n' :: b) = none)
    (hnl : ∀ b, m ('\n' :: b) = none) :
    ∀ n x b, x.length ≤ n → quoteFree x = true →
      subAll m (x ++ '\n' :: b) = subAll m x ++ '\n' :: subAll m b := by
  intro n
  induction n with
  | zero =>
    intro x b hn hqf
    have hx : x = [] := List.length_eq_zero.mp (Nat.le_zero.mp hn)
    subst hx
    rw [List.nil_append, subAll_cons_none (hnl b)]
    rfl
  | succ n ih =>
    intro x b hn hqf
    cases x with
    | nil =>
      rw [List.nil_append, subAll_cons_none (hnl b)]
      rfl
    | cons c x' =>
      rw [List.cons_append]
      cases hm : m (c :: x') with
      | none =>
        have hext := hnone _ hqf hm b
        rw [List.cons_append] at hext
        rw [subAll_cons_none hext, subAll_cons_none hm,
          ih x' b (by simp only [List.length_cons] at hn; omega) (quoteFree_cons hqf).2]
        rfl
      | some p =>
        obtain ⟨r, rest⟩ := p
        have hext := hsome _ _ _ hm ('\n' :: b)
        rw [List.cons_append] at hext
        have hlt1 : rest.length ≤ x'.length := consume_le hlt hm
        have hlt2 : (rest ++ '\n' :: b).length ≤ (x' ++ '\n' :: b).length := by
          simp only [List.length_append, List.length_cons]
          omega
        rw [subAll_cons_some hext hlt2, subAll_cons_some hm hlt1]
        have hqrest : quoteFree rest = true := quoteFree_tail (htail _ _ _ hm) hqf
        rw [ih rest b (by simp only [List.length_cons] at hn; omega) hqrest]
        simp [List.append_assoc]

theorem m1_pres {s r rest : List Char} (h : m1 s = some (r, rest))
    (hq : quoteFree s = true) : quoteFree r = true ∧ quoteFree rest = true := by
  obtain ⟨w, k, hw, hword, hk, hs, hr⟩ := m1_inv h
  subst hs
  subst hr
  simp only [quoteFree_append, Bool.and_eq_true] at hq
  obtain ⟨-, hqw, -, hqk, hqrest⟩ := hq
  constructor
  · simp only [quoteFree_append, Bool.and_eq_true]
    exact ⟨by decide, hqw, by decide, hqk, by decide⟩
  · exact (quoteFree_cons hqrest).2

theorem m2_pres {s r rest : List Char} (h : m2 s = some (r, rest))
    (hq : quoteFree s = true) : quoteFree r = true ∧ quoteFree rest = true := by
  obtain ⟨k, hk, hs, hr⟩ := m2_inv h
  subst hs
  subst hr
  simp only [quoteFree_append, Bool.and_eq_true] at hq
  obtain ⟨-, hqk, hqrest⟩ := hq
  constructor
  · simp only [quoteFree_append, Bool.and_eq_true]
    exact ⟨by decide, hqk, by decide⟩
  · exact (quoteFree_cons hqrest).2

theorem subAll_quoteFree {m : List Char → Option (List Char × List Char)}
    (hlt : ∀ s r rest, m s = some (r, rest) → rest.length < s.length)
    (hpres : ∀ s r rest, m s = some (r, rest) → quoteFree s = true →
      quoteFree r = true ∧ quoteFree rest = true) :
    ∀ n s, s.length ≤ n → quoteFree s = true → quoteFree (subAll m s) = true := by
  intro n
  induction n with
  | zero =>
    intro s hn hq
    have hs : s = [] := List.length_eq_zero.mp (Nat.le_zero.mp hn)
    subst hs
    exact hq
  | succ n ih =>
    intro s hn hq
    cases s with
    | nil => exact hq
    | cons c s' =>
      cases hm : m (c :: s') with
      | none =>
        rw [subAll_cons_none hm, quoteFree, List.all_cons, (quoteFree_cons hq).1,
          Bool.true_and]
        exact ih s' (by simp only [List.length_cons] at hn; omega) (quoteFree_cons hq).2
      | some p =>
        obtain ⟨r, rest⟩ := p
        rw [subAll_cons_some hm (consume_le hlt hm), quoteFree, List.all_append]
        obtain ⟨hr, hrest⟩ := hpres _ _ _ hm hq
        rw [show List.all r _ = quoteFree r from rfl, hr, Bool.true_and]
        have hle := consume_le hlt hm
        exact ih rest (by simp only [List.length_cons] at hn; omega) hrest

/-! ### The Declaration Mutability Fixer leaves no pattern behind -/

theorem subAll_match {m : List Char → Option (List Char × List Char)}
    (hlt : ∀ s r rest, m s = some (r, rest) → rest.length < s.length)
    {s r rest : List Char} (h : m s = some (r, rest)) :
    subAll m s = r ++ subAll m rest := by
  cases s with
  | nil =>
    have hx := hlt _ _ _ h
    simp at hx
  | cons c s' => exact subAll_cons_some h (consume_le hlt h)

theorem mConst_lt_all : ∀ s r rest, mConst s = some (r, rest) → rest.length < s.length :=
  fun _ _ _ h => mConst_lt h

theorem m1_lt_all : ∀ s r rest, m1 s = some (r, rest) → rest.length < s.length :=
  fun _ _ _ h => m1_lt h

theorem m2_lt_all : ∀ s r rest, m2 s = some (r, rest) → rest.length < s.length :=
  fun _ _ _ h => m2_lt h

theorem fix_cv_tail_of_starts :
    ∀ n s q, s.length ≤ n → q ∈ (patCE.drop 1).tails → q ≠ [] →
      starts q (subAll mConst s) = true → starts q s = true := by
  intro n
  induction n with
  | zero =>
    intro s q hn hq hne h
    have hs : s = [] := List.length_eq_zero.mp (Nat.le_zero.mp hn)
    subst hs
    cases q with
    | nil => exact absurd rfl hne
    | cons a as => rw [show subAll mConst [] = [] from rfl, starts_nil_right] at h; simp at h
  | succ n ih =>
    intro s q hn hq hne h
    cases s with
    | nil =>
      cases q with
      | nil => exact absurd rfl hne
      | cons a as =>
        rw [show subAll mConst [] = [] from rfl, starts_nil_right] at h; simp at h
    | cons c s' =>
      cases hm : mConst (c :: s') with
      | some p =>
        obtain ⟨r, rest⟩ := p
        obtain ⟨hr, -⟩ := mConst_inv hm
        subst hr
        rw [subAll_cons_some hm (consume_le mConst_lt_all hm)] at h
        have hcl : ∀ q' ∈ (patCE.drop 1).tails, q' ≠ [] → clash q' repVE = true := by decide
        rw [clash_no_starts (hcl q hq hne) (subAll mConst rest)] at h
        simp at h
      | none =>
        rw [subAll_cons_none hm] at h
        cases q with
        | nil => exact absurd rfl hne
        | cons a as =>
          rw [starts_cons, Bool.and_eq_true] at h
          obtain ⟨hac, has⟩ := h
          rw [starts_cons, hac, Bool.true_and]
          cases as with
          | nil => rfl
          | cons a2 as2 =>
            have hcl2 : ∀ q' ∈ (patCE.drop 1).tails,
                q'.tail = [] ∨ q'.tail ∈ (patCE.drop 1).tails := by decide
            rcases hcl2 _ hq with h0 | h0
            · simp at h0
            · exact ih s' (a2 :: as2) (by simp only [List.length_cons] at hn; omega) h0
                (by simp) has

theorem fix_cv_no_pat : ∀ n s, s.length ≤ n →
    occursB patCE (subAll mConst s) = false := by
  intro n
  induction n with
  | zero =>
    intro s hn
    have hs : s = [] := List.length_eq_zero.mp (Nat.le_zero.mp hn)
    subst hs
    decide
  | succ n ih =>
    intro s hn
    cases s with
    | nil => decide
    | cons c s' =>
      cases hm : mConst (c :: s') with
      | some p =>
        obtain ⟨r, rest⟩ := p
        obtain ⟨hr, -⟩ := mConst_inv hm
        subst hr
        rw [subAll_cons_some hm (consume_le mConst_lt_all hm)]
        refine occursB_append_left_false 'c' (patCE.drop 1) (by decide) ?_ ?_
        · intro x hx
          revert x
          decide
        · have hlt := mConst_lt hm
          exact ih rest (by simp only [List.length_cons] at hn hlt; omega)
      | none =>
        rw [subAll_cons_none hm, occursB_cons,
          ih s' (by simp only [List.length_cons] at hn; omega), Bool.or_false]
        cases hst : starts patCE (c :: subAll mConst s') with
        | false => rfl
        | true =>
          exfalso
          rw [show patCE = 'c' :: patCE.drop 1 from rfl, starts_cons, Bool.and_eq_true] at hst
          obtain ⟨hcc, hst'⟩ := hst
          have hs' := fix_cv_tail_of_starts s'.length s' (patCE.drop 1) (le_refl _)
            (by decide) (by decide) hst'
          have hfull : (mConst (c :: s')).isSome = true := by
            rw [mConst_isSome, show patCE = 'c' :: patCE.drop 1 from rfl, starts_cons,
              hcc, Bool.true_and]
            exact hs'
          rw [hm] at hfull
          simp at hfull

theorem anyMatch_mConst_false {X : List Char} (h : occursB patCE X = false) :
    anyMatchB mConst X = false := by
  induction X with
  | nil => decide
  | cons c X' ih =>
    rw [occursB_cons, Bool.or_eq_false_iff] at h
    rw [anyMatchB, mConst_isSome, h.1, Bool.false_or]
    exact ih h.2

/-! ### Newline counting -/

theorem subAll_count {m : List Char → Option (List Char × List Char)}
    (hlt : ∀ s r rest, m s = some (r, rest) → rest.length < s.length)
    (hcnt : ∀ s r rest, m s = some (r, rest) →
      List.count '\n' r + List.count '\n' rest = List.count '\n' s) :
    ∀ n s, s.length ≤ n → List.count '\n' (subAll m s) = List.count '\n' s := by
  intro n
  induction n with
  | zero =>
    intro s hn
    have hs : s = [] := List.length_eq_zero.mp (Nat.le_zero.mp hn)
    subst hs
    rfl
  | succ n ih =>
    intro s hn
    cases s with
    | nil => rfl
    | cons c s' =>
      cases hm : m (c :: s') with
      | none =>
        rw [subAll_cons_none hm, List.count_cons, List.count_cons,
          ih s' (by simp only [List.length_cons] at hn; omega)]
      | some p =>
        obtain ⟨r, rest⟩ := p
        have hle := consume_le hlt hm
        rw [subAll_cons_some hm hle, List.count_append,
          ih rest (by simp only [List.length_cons] at hn; omega), hcnt _ _ _ hm]

theorem mConst_count : ∀ s r rest, mConst s = some (r, rest) →
    List.count '\n' r + List.count '\n' rest = List.count '\n' s := by
  intro s r rest h
  obtain ⟨hr, hs⟩ := mConst_inv h
  subst hr
  subst hs
  rw [List.count_append]
  have e1 : List.count '\n' patCE = 0 := by decide
  have e2 : List.count '\n' repVE = 0 := by decide
  rw [e1, e2]

theorem m1_count : ∀ s r rest, m1 s = some (r, rest) →
    List.count '\n' r + List.count '\n' rest = List.count '\n' s := by
  intro s r rest h
  obtain ⟨w, k, -, -, -, hs, hr⟩ := m1_inv h
  subst hr
  subst hs
  simp only [List.count_append, List.count_cons]
  have e1 : List.count '\n' litConst = 0 := by decide
  have e2 : List.count '\n' litTryGet = 0 := by decide
  have e3 : List.count '\n' litEqGet = 0 := by decide
  have e4 : List.count '\n' closeRep = 0 := by decide
  rw [e1, e2, e3, e4]
  simp [show ((')' : Char) == '\n') = false by decide]
  omega

theorem m2_count : ∀ s r rest, m2 s = some (r, rest) →
    List.count '\n' r + List.count '\n' rest = List.count '\n' s := by
  intro s r rest h
  obtain ⟨k, -, hs, hr⟩ := m2_inv h
  subst hr
  subst hs
  simp only [List.count_append, List.count_cons]
  have e1 : List.count '\n' litUnd = 0 := by decide
  have e2 : List.count '\n' litUndRep = 0 := by decide
  have e4 : List.count '\n' closeRep = 0 := by decide
  rw [e1, e2, e4]
  simp [show ((')' : Char) == '\n') = false by decide]

/-! ### Where the two patterns of the rewriter can start -/

theorem starts_litUnd_word_false {w' Y : List Char} (hne : w' ≠ [])
    (hword : ∀ c ∈ w', wordChar c = true) :
    starts litUnd (w' ++ (litEqGet ++ Y)) = false := by
  cases w' with
  | nil => exact absurd rfl hne
  | cons c w'' =>
    rw [show litUnd = '_' :: litUnd.drop 1 from rfl, List.cons_append, starts_cons]
    cases huc : ('_' == c) with
    | false => rw [Bool.false_and]
    | true =>
      rw [Bool.true_and]
      cases w'' with
      | nil =>
        rw [List.nil_append]
        exact clash_no_starts (by decide) Y
      | cons c2 w''' =>
        rw [show litUnd.drop 1 = ' ' :: litUnd.drop 2 from rfl, List.cons_append, starts_cons]
        have hc2 : (' ' == c2) = false := by
          cases hcc : (' ' == c2) with
          | false => rfl
          | true =>
            have he : ' ' = c2 := by simpa using hcc
            have hw2 := hword c2 (by simp)
            rw [← he] at hw2
            exact absurd hw2 (by decide)
        rw [hc2, Bool.false_and]

theorem no_litUnd_in_bound_rewrite {w k : List Char} (hword : ∀ c ∈ w, wordChar c = true)
    (hk : occursB litUnd k = false) :
    occursB litUnd (litConst ++ (w ++ (litEqGet ++ (k ++ closeRep)))) = false := by
  refine occursB_seg_false ?_ ?_
  · intro t ht hne
    have hmem := tailOf_mem_tails ht
    have hcl : ∀ t' ∈ litConst.tails, t' ≠ [] → clash litUnd t' = true := by decide
    exact clash_no_starts (hcl t hmem hne) _
  refine occursB_seg_false ?_ ?_
  · intro t ht hne
    have htw : ∀ c ∈ t, wordChar c = true := by
      obtain ⟨d, rfl⟩ := ht
      intro c hc
      exact hword c (List.mem_append.mpr (Or.inr hc))
    exact starts_litUnd_word_false hne htw
  refine occursB_seg_false ?_ ?_
  · intro t ht hne
    have hmem := tailOf_mem_tails ht
    have hcl : ∀ t' ∈ litEqGet.tails, t' ≠ [] → clash litUnd t' = true := by decide
    exact clash_no_starts (hcl t hmem hne) _
  refine occursB_seg_false ?_ ?_
  · intro t ht hne
    have hst : starts litUnd t = false := occursB_false_starts hk ht
    exact starts_extend_false (by decide) hst ['.', '?']
  · decide

theorem no_litConst_in_discarded {k : List Char} (hk : occursB litConst k = false) :
    occursB litConst (litUnd ++ (k ++ [')'])) = false := by
  refine occursB_seg_false ?_ ?_
  · intro t ht hne
    have hmem := tailOf_mem_tails ht
    have hcl : ∀ t' ∈ litUnd.tails, t' ≠ [] → clash litConst t' = true := by decide
    exact clash_no_starts (hcl t hmem hne) _
  refine occursB_seg_false ?_ ?_
  · intro t ht hne
    have hst : starts litConst t = false := occursB_false_starts hk ht
    exact starts_extend_false (by decide) hst []
  · decide

theorem m1_isSome_starts {t : List Char} (h : (m1 t).isSome = true) :
    starts litConst t = true := by
  cases hm : m1 t with
  | none => rw [hm] at h; simp at h
  | some p =>
    obtain ⟨r, rest⟩ := p
    obtain ⟨w, k, -, -, -, ht, -⟩ := m1_inv hm
    rw [ht]
    exact starts_self_append _ _

theorem m2_isSome_starts {t : List Char} (h : (m2 t).isSome = true) :
    starts litUnd t = true := by
  cases hm : m2 t with
  | none => rw [hm] at h; simp at h
  | some p =>
    obtain ⟨r, rest⟩ := p
    obtain ⟨k, -, ht, -⟩ := m2_inv hm
    rw [ht]
    exact starts_self_append _ _

theorem m1_isSome_marker {t : List Char} (h : (m1 t).isSome = true) :
    occursB markerTry t = true := by
  cases hm : m1 t with
  | none => rw [hm] at h; simp at h
  | some p =>
    obtain ⟨r, rest⟩ := p
    obtain ⟨w, k, -, -, -, ht, -⟩ := m1_inv hm
    have hshape : t = (litConst ++ w) ++ (markerTry ++
        (['e', 'n', 'v', '.', 'g', 'e', 't', '('] ++ (k ++ ')' :: rest))) := by
      rw [ht]
      simp [litConst, litTryGet, markerTry]
    rw [hshape]
    exact occursB_intro markerTry _ _

theorem m2_isSome_marker {t : List Char} (h : (m2 t).isSome = true) :
    occursB markerTry t = true := by
  cases hm : m2 t with
  | none => rw [hm] at h; simp at h
  | some p =>
    obtain ⟨r, rest⟩ := p
    obtain ⟨k, -, ht, -⟩ := m2_inv hm
    have hshape : t = ['_'] ++ (markerTry ++
        (['e', 'n', 'v', '.', 'g', 'e', 't', '('] ++ (k ++ ')' :: rest))) := by
      rw [ht]
      simp [litUnd, markerTry]
    rw [hshape]
    exact occursB_intro markerTry _ _

/-! ### Whole-line rewrites of the Optional-Unwrap Rewriter -/

theorem fix_tests_bound_line {w k : List Char} (hw : w ≠ [])
    (hword : ∀ c ∈ w, wordChar c = true) (hk : KeyShape k)
    (hsm : occursB litUnd k = false) :
    fix_env_get_calls (litConst ++ (w ++ (litTryGet ++ (k ++ [')'])))) =
      litConst ++ (w ++ (litEqGet ++ (k ++ closeRep))) := by
  unfold fix_env_get_calls
  rw [subAll_match m1_lt_all (m1_complete hw hword hk []),
    show subAll m1 [] = [] from rfl, List.append_nil]
  exact subAll_id (anyMatchB_false_of_no_occurs
    (fun t ht => occursB_of_starts (m2_isSome_starts ht))
    (no_litUnd_in_bound_rewrite hword hsm))

theorem fix_tests_discarded_line {k : List Char} (hk : KeyShape k)
    (hsm : occursB litConst k = false) :
    fix_env_get_calls (litUnd ++ (k ++ [')'])) = litUndRep ++ (k ++ closeRep) := by
  unfold fix_env_get_calls
  have h1 : subAll m1 (litUnd ++ (k ++ [')'])) = litUnd ++ (k ++ [')']) :=
    subAll_id (anyMatchB_false_of_no_occurs
      (fun t ht => occursB_of_starts (m1_isSome_starts ht))
      (no_litConst_in_discarded hsm))
  rw [h1, subAll_match m2_lt_all (m2_complete hk []),
    show subAll m2 [] = [] from rfl, List.append_nil]

theorem fix_tests_second_pass_id {s : List Char}
    (h : occursB markerTry (fix_env_get_calls s) = false) :
    fix_env_get_calls (fix_env_get_calls s) = fix_env_get_calls s := by
  have h1 : subAll m1 (fix_env_get_calls s) = fix_env_get_calls s :=
    subAll_id (anyMatchB_false_of_no_occurs (fun t ht => m1_isSome_marker ht) h)
  have h2 : subAll m2 (fix_env_get_calls s) = fix_env_get_calls s :=
    subAll_id (anyMatchB_false_of_no_occurs (fun t ht => m2_isSome_marker ht) h)
  calc fix_env_get_calls (fix_env_get_calls s)
      = subAll m2 (subAll m1 (fix_env_get_calls s)) := rfl
    _ = subAll m2 (fix_env_get_calls s) := by rw [h1]
    _ = fix_env_get_calls s := h2

/-! ### Contextual replacement for the Declaration Mutability Fixer -/

theorem fix_cv_decomp : ∀ a b, occursB patCE (a ++ patCEinit) = false →
    fix_const_to_var (a ++ (patCE ++ b)) = a ++ (repVE ++ fix_const_to_var b) := by
  intro a
  induction a with
  | nil =>
    intro b hocc
    rw [List.nil_append, List.nil_append]
    unfold fix_const_to_var
    rw [subAll_match mConst_lt_all (mConst_complete b)]
  | cons c a' ih =>
    intro b hocc
    have hnm : mConst ((c :: a') ++ (patCE ++ b)) = none := by
      cases hmc : mConst ((c :: a') ++ (patCE ++ b)) with
      | none => rfl
      | some p =>
        exfalso
        have hst : starts patCE ((c :: a') ++ (patCE ++ b)) = true := by
          rw [← mConst_isSome, hmc]
          rfl
        have hsh : (c :: a') ++ (patCE ++ b) = ((c :: a') ++ patCEinit) ++ ('y' :: b) := by
          rw [show patCE = patCEinit ++ ['y'] from rfl]
          simp
        rw [hsh] at hst
        have hlen : patCE.length ≤ ((c :: a') ++ patCEinit).length := by
          simp [patCE, patCEinit]
        have hs2 := occursB_of_starts (starts_shorten hlen hst)
        rw [hocc] at hs2
        simp at hs2
    unfold fix_const_to_var at ih ⊢
    have hocc' : occursB patCE (c :: (a' ++ patCEinit)) = false := hocc
    rw [occursB_cons, Bool.or_eq_false_iff] at hocc'
    have hnm' : mConst (c :: (a' ++ (patCE ++ b))) = none := hnm
    rw [List.cons_append, subAll_cons_none hnm', ih b hocc'.2]
    rfl

/-! ### The claims -/

/-- C1: the Declaration Mutability Fixer replaces every occurrence of
`const env = try` with `var env = try` and leaves every character outside
the replaced occurrences unchanged; in particular
`const env = try Env.load();` becomes `var env = try Env.load();` and
`const config = try Config.load();` is unchanged.  The first conjunct is
the contextual form: when no occurrence of the pattern starts inside or
overlapping the preceding text `a`, the leftmost occurrence after `a` is
replaced and the scan continues after it, with `a` copied verbatim.  The
second conjunct settles the remaining texts: an input with no occurrence
at all — in particular the occurrence-free tail left by the first conjunct
after the last occurrence — is returned unchanged.  Together the two
conjuncts evaluate the transformation on every input. -/
theorem C1_decl_fixer_replaces_all :
    (∀ a b : List Char, occursB patCE (a ++ patCEinit) = false →
      fix_const_to_var (a ++ (patCE ++ b)) = a ++ (repVE ++ fix_const_to_var b)) ∧
    (∀ s : List Char, occursB patCE s = false → fix_const_to_var s = s) ∧
    fix_const_to_var "const env = try Env.load();".toList =
      "var env = try Env.load();".toList ∧
    fix_const_to_var "const config = try Config.load();".toList =
      "const config = try Config.load();".toList :=
  ⟨fix_cv_decomp, fun _ h => subAll_id (anyMatch_mConst_false h), by decide, by decide⟩

/-- Witness for C1 at a concrete context and tail, resolving the tail with
the occurrence-free conjunct so the input is fully evaluated. -/
theorem C1_decl_fixer_replaces_all_witness :
    occursB patCE ("AB".toList ++ patCEinit) = false ∧
    occursB patCE "CD".toList = false ∧
    fix_const_to_var ("AB".toList ++ (patCE ++ "CD".toList)) =
      "AB".toList ++ (repVE ++ "CD".toList) := by
  refine ⟨by decide, by decide, ?_⟩
  rw [C1_decl_fixer_replaces_all.1 "AB".toList "CD".toList (by decide),
    C1_decl_fixer_replaces_all.2.1 "CD".toList (by decide)]

/-- C2 counterexample: the rewriter's pattern hard-codes the lookup-call
`env.get`, so the occurrence `const x = try cfg.get("K")` with lookup-call
`cfg.get` is left unchanged, not rewritten as the claim states for every
lookup-call name. -/
theorem C2_lookup_call_cex :
    fix_env_get_calls "const x = try cfg.get(\"K\")".toList =
      "const x = try cfg.get(\"K\")".toList ∧
    fix_env_get_calls "const x = try cfg.get(\"K\")".toList ≠
      "const x = cfg.get(\"K\").?".toList :=
  ⟨by decide, by decide⟩

/-- C2 amended: for every word-character identifier and every key of the
three allowed shapes, the Optional-Unwrap Rewriter rewrites the bound form
`const <identifier> = try env.get(<key>)` (the lookup-call is fixed to
`env.get`, and the key must not itself contain the discarded-form text
`_ = try env.get(`, which a quoted key could smuggle past the second
substitution) into `const <identifier> = env.get(<key>).?`, preserving the
identifier and the key exactly; in particular the two examples of the claim
hold. -/
theorem C2_bound_rewrite_amended :
    (∀ w k : List Char, w ≠ [] → (∀ c ∈ w, wordChar c = true) → KeyShape k →
      occursB litUnd k = false →
      fix_env_get_calls (litConst ++ (w ++ (litTryGet ++ (k ++ [')'])))) =
        litConst ++ (w ++ (litEqGet ++ (k ++ closeRep)))) ∧
    fix_env_get_calls "const apiKey = try env.get(\"API_KEY\")".toList =
      "const apiKey = env.get(\"API_KEY\").?".toList ∧
    fix_env_get_calls "const val = try env.get(keyVar)".toList =
      "const val = env.get(keyVar).?".toList :=
  ⟨fun _ _ hw hword hk hsm => fix_tests_bound_line hw hword hk hsm, by decide, by decide⟩

/-- Witness for C2 amended at the identifier `apiKey` and the key
`"API_KEY"`. -/
theorem C2_bound_rewrite_amended_witness :
    KeyShape "\"API_KEY\"".toList ∧ occursB litUnd "\"API_KEY\"".toList = false ∧
    fix_env_get_calls (litConst ++ ("apiKey".toList ++
        (litTryGet ++ ("\"API_KEY\"".toList ++ [')'])))) =
      litConst ++ ("apiKey".toList ++ (litEqGet ++ ("\"API_KEY\"".toList ++ closeRep))) := by
  have ks : KeyShape "\"API_KEY\"".toList :=
    Or.inl ⟨"API_KEY".toList, by decide, by decide, by decide⟩
  exact ⟨ks, by decide,
    C2_bound_rewrite_amended.1 "apiKey".toList "\"API_KEY\"".toList (by decide) (by decide)
      ks (by decide)⟩

/-- C3 counterexample: the discarded-form pattern also hard-codes
`env.get`, so `_ = try cfg.get("K")` is left unchanged, not rewritten as
the claim states for every lookup-call name. -/
theorem C3_lookup_call_cex :
    fix_env_get_calls "_ = try cfg.get(\"K\")".toList =
      "_ = try cfg.get(\"K\")".toList ∧
    fix_env_get_calls "_ = try cfg.get(\"K\")".toList ≠
      "_ = cfg.get(\"K\").?".toList :=
  ⟨by decide, by decide⟩

/-- C3 amended: for every key of the three allowed shapes, the
Optional-Unwrap Rewriter rewrites the discarded form `_ = try env.get(<key>)`
(the lookup-call is fixed to `env.get`, and the key must not itself contain
the bound-form opener `const `, which a quoted key could smuggle past the
first substitution) into `_ = env.get(<key>).?`, preserving the key exactly;
in particular `_ = try env.get('DEBUG')` becomes `_ = env.get('DEBUG').?`. -/
theorem C3_discarded_rewrite_amended :
    (∀ k : List Char, KeyShape k → occursB litConst k = false →
      fix_env_get_calls (litUnd ++ (k ++ [')'])) = litUndRep ++ (k ++ closeRep)) ∧
    fix_env_get_calls "_ = try env.get('DEBUG')".toList =
      "_ = env.get('DEBUG').?".toList :=
  ⟨fun _ hk hsm => fix_tests_discarded_line hk hsm, by decide⟩

/-- Witness for C3 amended at the key `'DEBUG'`. -/
theorem C3_discarded_rewrite_amended_witness :
    KeyShape "'DEBUG'".toList ∧ occursB litConst "'DEBUG'".toList = false ∧
    fix_env_get_calls (litUnd ++ ("'DEBUG'".toList ++ [')'])) =
      litUndRep ++ ("'DEBUG'".toList ++ closeRep) := by
  have ks : KeyShape "'DEBUG'".toList :=
    Or.inr (Or.inl ⟨"DEBUG".toList, by decide, by decide, by decide⟩)
  exact ⟨ks, by decide, C3_discarded_rewrite_amended.1 "'DEBUG'".toList ks (by decide)⟩

/-- C4: the Declaration Mutability Fixer is idempotent, and after one
application the output contains no occurrence of `const env = try` (the
replacement `var env = try` contains no `c`, and copied text around
replacements cannot recombine into the pattern, since any new leading
segment of the pattern in the output is already one in the input). -/
theorem C4_decl_fixer_idempotent (s : List Char) :
    fix_const_to_var (fix_const_to_var s) = fix_const_to_var s ∧
    occursB patCE (fix_const_to_var s) = false := by
  have hno : occursB patCE (fix_const_to_var s) = false :=
    fix_cv_no_pat s.length s (le_refl _)
  refine ⟨?_, hno⟩
  exact subAll_id (anyMatch_mConst_false hno)

/-- C5 counterexample: the quoted-key character classes of the rewriter
match newlines, so a match can span a newline: splitting the text
`const x = try env.get("A<newline>B")` at its newline changes the result,
refuting the claimed distribution over newline-separated concatenation. -/
theorem C5_newline_span_cex :
    fix_env_get_calls ("const x = try env.get(\"A".toList ++ '\n' :: "B\")".toList) ≠
      fix_env_get_calls "const x = try env.get(\"A".toList ++
        '\n' :: fix_env_get_calls "B\")".toList := by
  decide

/-- C5 amended: only a quoted key can carry a match of the Optional-Unwrap
Rewriter across a newline; every other part of the patterns matches no
newline.  Consequently the transformation distributes over a newline
whenever the text before it contains no quote character (the text after the
newline is unrestricted). -/
theorem C5_line_local_amended (a b : List Char) (hq : quoteFree a = true) :
    fix_env_get_calls (a ++ '\n' :: b) =
      fix_env_get_calls a ++ '\n' :: fix_env_get_calls b := by
  have hext1 := subAll_ext m1_lt_all (fun _ _ _ h => m1_tail h)
    (fun _ _ _ h e => m1_ext_some h e) (fun _ hx h b' => m1_ext_none hx h b') m1_nl
    a.length a b (le_refl _) hq
  have hq1 : quoteFree (subAll m1 a) = true :=
    subAll_quoteFree m1_lt_all (fun _ _ _ h hqq => m1_pres h hqq) a.length a (le_refl _) hq
  have hext2 := subAll_ext m2_lt_all (fun _ _ _ h => m2_tail h)
    (fun _ _ _ h e => m2_ext_some h e) (fun _ hx h b' => m2_ext_none hx h b') m2_nl
    (subAll m1 a).length (subAll m1 a) (subAll m1 b) (le_refl _) hq1
  show subAll m2 (subAll m1 (a ++ '\n' :: b)) =
    subAll m2 (subAll m1 a) ++ '\n' :: subAll m2 (subAll m1 b)
  rw [hext1, hext2]

/-- Witness for C5 amended at a one-character line on each side of the
newline. -/
theorem C5_line_local_amended_witness :
    quoteFree "x".toList = true ∧
    fix_env_get_calls ("x".toList ++ '\n' :: "y".toList) =
      fix_env_get_calls "x".toList ++ '\n' :: fix_env_get_calls "y".toList :=
  ⟨by decide, C5_line_local_amended "x".toList "y".toList (by decide)⟩

/-- C6: when no pattern of the respective tool matches anywhere in the
input, the transformation returns the input unchanged, and both
transformations map the empty text to the empty text. -/
theorem C6_no_match_noop (s : List Char) :
    (anyMatchB mConst s = false → fix_const_to_var s = s) ∧
    (anyMatchB m1 s = false → anyMatchB m2 s = false → fix_env_get_calls s = s) ∧
    fix_const_to_var [] = [] ∧ fix_env_get_calls [] = [] := by
  refine ⟨fun h => subAll_id h, fun h1 h2 => ?_, rfl, rfl⟩
  show subAll m2 (subAll m1 s) = s
  rw [subAll_id h1, subAll_id h2]

/-- Witness for C6 on a text neither pattern matches. -/
theorem C6_no_match_noop_witness :
    anyMatchB mConst "hello world".toList = false ∧
    anyMatchB m1 "hello world".toList = false ∧
    anyMatchB m2 "hello world".toList = false ∧
    fix_const_to_var "hello world".toList = "hello world".toList ∧
    fix_env_get_calls "hello world".toList = "hello world".toList :=
  ⟨by decide, by decide, by decide,
    (C6_no_match_noop "hello world".toList).1 (by decide),
    (C6_no_match_noop "hello world".toList).2.1 (by decide) (by decide)⟩

/-- C7: with an argument vector whose length is not 2 (i.e. a user argument
count other than one), either tool prints its usage line and exits with
status 1, without reading or writing any file. -/
theorem C7_usage_error (argv : List String) (content : List Char) (h : argv.length ≠ 2) :
    mainConstVar argv content =
      ⟨1, ["Usage: python fix_const_var.py <file>"], false, none⟩ ∧
    mainTests argv content =
      ⟨1, ["Usage: python fix_tests.py <file>"], false, none⟩ := by
  constructor <;> simp [mainConstVar, mainTests, runScript, h]

/-- Witness for C7 at an argument vector holding only the script name. -/
theorem C7_usage_error_witness :
    (["fix_const_var.py"] : List String).length ≠ 2 ∧
    mainConstVar ["fix_const_var.py"] [] =
      ⟨1, ["Usage: python fix_const_var.py <file>"], false, none⟩ ∧
    mainTests ["fix_const_var.py"] [] =
      ⟨1, ["Usage: python fix_tests.py <file>"], false, none⟩ :=
  ⟨by decide, (C7_usage_error ["fix_const_var.py"] [] (by decide)).1,
    (C7_usage_error ["fix_const_var.py"] [] (by decide)).2⟩

/-- C8: with exactly one user argument (an argument vector of the script
name and the file path), either tool writes the transformed content back,
prints `Fixed <filepath>`, and exits with status 0. -/
theorem C8_success_run (prog fp : String) (content : List Char) :
    mainConstVar [prog, fp] content =
      ⟨0, ["Fixed " ++ fp], true, some (fix_const_to_var content)⟩ ∧
    mainTests [prog, fp] content =
      ⟨0, ["Fixed " ++ fp], true, some (fix_env_get_calls content)⟩ := by
  constructor <;> rfl

/-- C9 counterexample: the Optional-Unwrap Rewriter is not idempotent.  A
single-quoted key may contain the marker ` = try `; the first application
carries it through verbatim, and the second application then rewrites
inside the once-rewritten text. -/
theorem C9_idempotence_cex :
    fix_env_get_calls (fix_env_get_calls
        "const x = try env.get('const y = try env.get(z)')".toList) ≠
      fix_env_get_calls "const x = try env.get('const y = try env.get(z)')".toList := by
  decide

/-- C9 amended: the Optional-Unwrap Rewriter is idempotent on every input
whose once-transformed output no longer contains the marker ` = try ` that
both patterns require (quoted keys can carry the marker through the first
application, which is exactly the failure mode of the unrestricted
claim). -/
theorem C9_idempotent_amended (s : List Char)
    (h : occursB markerTry (fix_env_get_calls s) = false) :
    fix_env_get_calls (fix_env_get_calls s) = fix_env_get_calls s :=
  fix_tests_second_pass_id h

/-- Witness for C9 amended on a discarded-form line. -/
theorem C9_idempotent_amended_witness :
    occursB markerTry (fix_env_get_calls "_ = try env.get('DEBUG')".toList) = false ∧
    fix_env_get_calls (fix_env_get_calls "_ = try env.get('DEBUG')".toList) =
      fix_env_get_calls "_ = try env.get('DEBUG')".toList :=
  ⟨by decide, C9_idempotent_amended _ (by decide)⟩

/-- C10: both transformations preserve the number of newline characters:
the patterns and replacements contain no newline outside the key, and the
key is carried through unchanged. -/
theorem C10_newline_count (s : List Char) :
    List.count '\n' (fix_const_to_var s) = List.count '\n' s ∧
    List.count '\n' (fix_env_get_calls s) = List.count '\n' s := by
  constructor
  · exact subAll_count mConst_lt_all mConst_count s.length s (le_refl _)
  · show List.count '\n' (subAll m2 (subAll m1 s)) = _
    rw [subAll_count m2_lt_all m2_count (subAll m1 s).length (subAll m1 s) (le_refl _),
      subAll_count m1_lt_all m1_count s.length s (le_refl _)]
